import Mathlib

/-!
Shallow embedding of the Flowgrind command line argument parser
(src/fg_argparser.c).  C strings are modelled as NUL-free lists of
characters, the caller supplied option table as a list of descriptors
scanned up to the first descriptor whose code is 0 (the C sentinel),
and the parser state as a structure holding the record store and the
error accumulator.
-/

/-- A C string (tokens never contain an embedded NUL). -/
abbrev Str := List Char

/-- The has_arg enumeration of an option descriptor.  The code under
scrutiny only uses the two values ap_no and ap_yes. -/
inductive Has_arg where
  | ap_no : Has_arg
  | ap_yes : Has_arg
deriving DecidableEq

open Has_arg

/-- Option descriptor, struct _ap_Option.  The code 0 is the table
terminating sentinel; name is NULL for short-only options. -/
structure ApOption where
  code : Nat
  name : Option Str
  has_arg : Has_arg
deriving DecidableEq

/-- Decoded record, struct _ap_Record. -/
structure ApRecord where
  option : ApOption
  argument : Str
  opt_string : Str
deriving DecidableEq

/-- The shared operand sentinel descriptor, the local non_option of
ap_init. -/
def nonOption : ApOption := { code := 0, name := none, has_arg := ap_no }

/-- The string asprintf("-%c", code) produces: printing the character 0
terminates the C string right after the dash. -/
def shortOptString (code : Nat) : Str :=
  if code = 0 then ['-'] else ['-', Char.ofNat code]

/-- Record construction inside push_back_record: the stored descriptor
pointer, the copied argument, and the rendered opt_string. -/
def mkRecord (o : ApOption) (long_opt : Bool) (argument : Str) : ApRecord :=
  { option := o, argument := argument,
    opt_string :=
      if long_opt then '-' :: '-' :: o.name.getD [] else shortOptString o.code }

/-- Record pushed for a plain operand token. -/
def operandRecord (tok : Str) : ApRecord :=
  mkRecord nonOption false tok

/-- The single quote character, kept out of string literals. -/
def quoteChar : Char := Char.ofNat 39

/-- Error message of an ambiguous long option. -/
def ambigMsg (opt : Str) : Str :=
  "option ".data ++ [quoteChar] ++ opt ++ [quoteChar] ++ " is ambiguous".data

/-- Error message of an unrecognized long option. -/
def unrecMsg (opt : Str) : Str :=
  "unrecognized option ".data ++ [quoteChar] ++ opt ++ [quoteChar]

/-- Error message of a long option given an argument it does not take. -/
def noArgAllowedMsg (o : ApOption) : Str :=
  "option ".data ++ [quoteChar] ++ "--".data ++ o.name.getD [] ++ [quoteChar] ++
    " doesn".data ++ [quoteChar] ++ "t allow an argument".data

/-- Error message of a long option whose required argument is missing. -/
def longReqMsg (o : ApOption) : Str :=
  "option ".data ++ [quoteChar] ++ "--".data ++ o.name.getD [] ++ [quoteChar] ++
    " requires an argument".data

/-- Error message of an unknown short option character. -/
def invalidMsg (c : Char) : Str :=
  "invalid option -- ".data ++ [c]

/-- Error message of a short option whose required argument is missing. -/
def shortReqMsg (c : Char) : Str :=
  "option requires an argument -- ".data ++ [c]

/-- strncmp(name, slice, len) == 0 where len is the length of the name
slice: true iff the slice is a character-wise prefix of the name. -/
def strncmpEq : Str → Str → Bool
  | [], _ => true
  | _ :: _, [] => false
  | c :: cs, d :: ds => c = d && strncmpEq cs ds

/-- The candidate scan loop of parse_long_option (lines 155-171 of
fg_argparser.c).  Arguments sel and amb carry the current tentative
abbreviation candidate (options[index]) and the ambiguity flag; the
result is the final (candidate, exact, ambiguous) triple.  The scan
stops at the table sentinel or, immediately, at an exact match. -/
def scanLong (slice : Str) : List ApOption → Option ApOption → Bool →
    Option ApOption × Bool × Bool
  | [], sel, amb => (sel, false, amb)
  | o :: rest, sel, amb =>
    if o.code = 0 then (sel, false, amb)
    else
      match o.name with
      | none => scanLong slice rest sel amb
      | some nm =>
        if strncmpEq slice nm then
          if nm.length = slice.length then (some o, true, amb)
          else
            match sel with
            | none => scanLong slice rest (some o) amb
            | some s =>
              if s.code ≠ o.code ∨ s.has_arg ≠ o.has_arg then
                scanLong slice rest sel true
              else
                scanLong slice rest sel amb
        else scanLong slice rest sel amb

/-- parse_long_option: resolves a --name[=value] token against the
table and produces (records pushed, error message, advance of the
argument-vector cursor).  opt is the whole token, arg the next token of
the vector when present. -/
def parse_long_option (opt : Str) (arg : Option Str) (options : List ApOption) :
    List ApRecord × Option Str × Nat :=
  let slice := (opt.drop 2).takeWhile (fun c => c != '=')
  match scanLong slice options none false with
  | (sel, exact, ambig) =>
    if ambig && !exact then ([], some (ambigMsg opt), 0)
    else
      match sel with
      | none => ([], some (unrecMsg opt), 0)
      | some o =>
        match (opt.drop 2).drop slice.length with
        | _ :: value =>
          if o.has_arg = ap_no then ([], some (noArgAllowedMsg o), 1)
          else if o.has_arg = ap_yes ∧ value = [] then
            ([], some (longReqMsg o), 1)
          else ([mkRecord o true value], none, 1)
        | [] =>
          if o.has_arg = ap_yes then
            match arg with
            | none => ([], some (longReqMsg o), 1)
            | some a =>
              if a = [] then ([], some (longReqMsg o), 1)
              else ([mkRecord o true a], none, 2)
          else ([mkRecord o true []], none, 1)

/-- The code lookup loop of parse_short_option (lines 245-250): first
table entry, before the sentinel, whose code equals the character. -/
def findCode (c : Char) : List ApOption → Option ApOption
  | [] => none
  | o :: rest =>
    if o.code = 0 then none
    else if c.toNat = o.code then some o else findCode c rest

/-- The cluster loop of parse_short_option, acting on the part of the
token that starts at the cursor cind (which is nonempty at every
iteration of the C loop).  Result: (records pushed, error message,
advance of the argument-vector cursor). -/
def shortLoop (options : List ApOption) (arg : Option Str) :
    Str → List ApRecord × Option Str × Nat
  | [] => ([], none, 0)
  | c :: rest =>
    match findCode c options with
    | none => ([], some (invalidMsg c), 0)
    | some o =>
      if o.has_arg ≠ ap_no ∧ rest ≠ [] then
        ([mkRecord o false rest], none, 1)
      else if o.has_arg = ap_yes then
        match arg with
        | none => ([], some (shortReqMsg c), 1)
        | some a =>
          if a = [] then ([], some (shortReqMsg c), 1)
          else ([mkRecord o false a], none, 2)
      else if rest = [] then
        ([mkRecord o false []], none, 1)
      else
        match shortLoop options arg rest with
        | (rs, e, adv) => (mkRecord o false [] :: rs, e, adv)

/-- parse_short_option: processes a -xyz cluster token. -/
def parse_short_option (opt : Str) (arg : Option Str)
    (options : List ApOption) : List ApRecord × Option Str × Nat :=
  shortLoop options arg (opt.drop 1)

/-- Result of the driver scan loop of ap_init: records pushed in scan
order, the error message if one was set, the side buffer of deferred
operands (non_options) in encounter order, and the tokens left after a
"--" terminator. -/
structure ScanOut where
  recs : List ApRecord
  error : Option Str
  nonopts : List Str
  leftover : List Str
deriving DecidableEq

/-- The while loop of ap_init over the tokens after the program name.
A token starting with a dash and a second character is an option; the
bare "--" token ends scanning; anything else is an operand, deferred
when in_order is false and recorded in place when it is true. -/
def scan (options : List ApOption) (in_order : Bool) : (l : List Str) → ScanOut
  | [] => ⟨[], none, [], []⟩
  | tok :: rest =>
    match tok with
    | '-' :: '-' :: [] => ⟨[], none, [], rest⟩
    | '-' :: '-' :: c :: cs =>
      match parse_long_option ('-' :: '-' :: c :: cs) rest.head? options with
      | (rs, some e, _) => ⟨rs, some e, [], []⟩
      | (rs, none, adv) =>
        if adv ≥ 2 then
          match rest with
          | [] => ⟨rs, none, [], []⟩
          | _ :: rest2 =>
            match scan options in_order rest2 with
            | out => ⟨rs ++ out.recs, out.error, out.nonopts, out.leftover⟩
        else
          match scan options in_order rest with
          | out => ⟨rs ++ out.recs, out.error, out.nonopts, out.leftover⟩
    | '-' :: c :: cs =>
      match shortLoop options rest.head? (c :: cs) with
      | (rs, some e, _) => ⟨rs, some e, [], []⟩
      | (rs, none, adv) =>
        if adv ≥ 2 then
          match rest with
          | [] => ⟨rs, none, [], []⟩
          | _ :: rest2 =>
            match scan options in_order rest2 with
            | out => ⟨rs ++ out.recs, out.error, out.nonopts, out.leftover⟩
        else
          match scan options in_order rest with
          | out => ⟨rs ++ out.recs, out.error, out.nonopts, out.leftover⟩
    | _ =>
      if in_order then
        match scan options in_order rest with
        | out => ⟨operandRecord tok :: out.recs, out.error, out.nonopts,
                  out.leftover⟩
      else
        match scan options in_order rest with
        | out => ⟨out.recs, out.error, tok :: out.nonopts, out.leftover⟩
termination_by structural l => l

/-- Parser state, struct _arg_parser; data_size is the length of data
and is not duplicated. -/
structure ArgParser where
  data : List ApRecord
  error : Option Str
  error_size : Nat
deriving DecidableEq

/-- free_data: releases and empties the record store. -/
def free_data (ap : ArgParser) : ArgParser :=
  { ap with data := [] }

/-- ap_free: free_data followed by the release of the error buffer. -/
def ap_free (ap : ArgParser) : ArgParser :=
  { free_data ap with error := none, error_size := 0 }

/-- ap_init: runs the scan loop over argv, then on error discards every
record, and on success appends the deferred operands and the tokens
behind a "--" terminator, in original order, as operand records. -/
def ap_init (argv : List Str) (options : List ApOption) (in_order : Bool) :
    ArgParser :=
  if argv.length < 2 then ⟨[], none, 0⟩
  else
    match scan options in_order (argv.drop 1) with
    | out =>
      match out.error with
      | some e => ⟨[], some e, e.length⟩
      | none =>
        ⟨out.recs ++ (out.nonopts ++ out.leftover).map operandRecord, none, 0⟩

/-- ap_error. -/
def ap_error (ap : ArgParser) : Option Str := ap.error

/-- ap_arguments. -/
def ap_arguments (ap : ArgParser) : Nat := ap.data.length

/-- ap_code: 0 when the index is out of range (the C index is an int,
so negative values are possible). -/
def ap_code (ap : ArgParser) (i : Int) : Nat :=
  if 0 ≤ i ∧ i < (ap_arguments ap : Int) then
    ((ap.data.get? i.toNat).map (fun r => r.option.code)).getD 0
  else 0

/-- ap_argument: the empty string when the index is out of range. -/
def ap_argument (ap : ArgParser) (i : Int) : Str :=
  if 0 ≤ i ∧ i < (ap_arguments ap : Int) then
    ((ap.data.get? i.toNat).map (fun r => r.argument)).getD []
  else []

/-- ap_opt_string: the empty string when the index is out of range. -/
def ap_opt_string (ap : ArgParser) (i : Int) : Str :=
  if 0 ≤ i ∧ i < (ap_arguments ap : Int) then
    ((ap.data.get? i.toNat).map (fun r => r.opt_string)).getD []
  else []

/-- ap_option: NULL (none) when the index is out of range. -/
def ap_option (ap : ArgParser) (i : Int) : Option ApOption :=
  if 0 ≤ i ∧ i < (ap_arguments ap : Int) then
    (ap.data.get? i.toNat).map (fun r => r.option)
  else none

/-- ap_is_used: scans the record store for a record whose descriptor
carries the queried code. -/
def ap_is_used (ap : ArgParser) (code : Nat) : Bool :=
  ap.data.any (fun r => r.option.code = code)

/-- A no-argument descriptor named verbose. -/
def verboseOpt : ApOption := { code := 118, name := some "verbose".data, has_arg := ap_no }

/-- A no-argument descriptor named version. -/
def versionOpt : ApOption := { code := 86, name := some "version".data, has_arg := ap_no }

/-- A no-argument descriptor named foo. -/
def fooOpt : ApOption := { code := 102, name := some "foo".data, has_arg := ap_no }

/-- A no-argument descriptor named foobar. -/
def foobarOpt : ApOption := { code := 103, name := some "foobar".data, has_arg := ap_no }

/-- A required-argument descriptor named foo. -/
def fooReqOpt : ApOption := { code := 102, name := some "foo".data, has_arg := ap_yes }

/-- Short-only no-argument descriptor a. -/
def aOpt : ApOption := { code := 97, name := none, has_arg := ap_no }

/-- Short-only no-argument descriptor b. -/
def bOpt : ApOption := { code := 98, name := none, has_arg := ap_no }

/-- Short-only required-argument descriptor c. -/
def cOpt : ApOption := { code := 99, name := none, has_arg := ap_yes }

/-- Short-only no-argument descriptor v. -/
def vOpt : ApOption := { code := 118, name := none, has_arg := ap_no }

/-- Candidate test of the long-option scan: the entry has a name and the
name slice is a character-wise prefix of it. -/
def isCand (slice : Str) (x : ApOption) : Bool :=
  match x.name with
  | none => false
  | some nm => strncmpEq slice nm

theorem strncmpEq_self (s : Str) : strncmpEq s s = true := by
  induction s with
  | nil => rfl
  | cons c cs ih => simp [strncmpEq, ih]

theorem eq_of_strncmpEq (s : Str) : ∀ nm : Str, strncmpEq s nm = true →
    nm.length = s.length → nm = s := by
  induction s with
  | nil =>
    intro nm _ hl
    exact List.length_eq_zero.mp hl
  | cons c cs ih =>
    intro nm h hl
    cases nm with
    | nil => simp [strncmpEq] at h
    | cons d ds =>
      simp only [strncmpEq, Bool.and_eq_true, decide_eq_true_eq] at h
      have := ih ds h.2 (by simpa using hl)
      simp [h.1, this]

/-- Once the ambiguity flag is raised and no exact match will be found,
the scan keeps the first candidate and the flag to the end. -/
theorem scanLong_keep_true (slice : Str) (f : ApOption) :
    ∀ opts : List ApOption, (∀ x ∈ opts, x.code ≠ 0) →
    (∀ x ∈ opts, x.name ≠ some slice) →
    scanLong slice opts (some f) true = (some f, false, true) := by
  intro opts
  induction opts with
  | nil => intro _ _; rfl
  | cons x rest ih =>
    intro hcode hname
    have hx : x.code ≠ 0 := hcode x (by simp)
    have hxn : x.name ≠ some slice := hname x (by simp)
    have ihr := ih (fun y hy => hcode y (by simp [hy]))
      (fun y hy => hname y (by simp [hy]))
    cases hn : x.name with
    | none => simp [scanLong, hx, hn, ihr]
    | some nm =>
      by_cases hp : strncmpEq slice nm
      · have hl : nm.length ≠ slice.length := by
          intro hlen
          exact hxn (by rw [hn, eq_of_strncmpEq slice nm hp hlen])
        by_cases hd : f.code ≠ x.code ∨ f.has_arg ≠ x.has_arg
        · simp [scanLong, hx, hn, hp, hl, hd, ihr]
        · simp [scanLong, hx, hn, hp, hl, hd, ihr]
      · simp [scanLong, hx, hn, hp, ihr]

/-- If every remaining candidate agrees with the held first candidate in
code and has_arg, and no exact match occurs, the scan result is the held
candidate with the ambiguity flag unchanged. -/
theorem scanLong_all_agree (slice : Str) (f : ApOption) (amb : Bool) :
    ∀ opts : List ApOption, (∀ x ∈ opts, x.code ≠ 0) →
    (∀ x ∈ opts, x.name ≠ some slice) →
    (∀ x ∈ opts, isCand slice x = true → f.code = x.code ∧ f.has_arg = x.has_arg) →
    scanLong slice opts (some f) amb = (some f, false, amb) := by
  intro opts
  induction opts with
  | nil => intro _ _ _; rfl
  | cons x rest ih =>
    intro hcode hname hagree
    have hx : x.code ≠ 0 := hcode x (by simp)
    have hxn : x.name ≠ some slice := hname x (by simp)
    have ihr := ih (fun y hy => hcode y (by simp [hy]))
      (fun y hy => hname y (by simp [hy]))
      (fun y hy h => hagree y (by simp [hy]) h)
    cases hn : x.name with
    | none => simp [scanLong, hx, hn, ihr]
    | some nm =>
      by_cases hp : strncmpEq slice nm
      · have hl : nm.length ≠ slice.length := by
          intro hlen
          exact hxn (by rw [hn, eq_of_strncmpEq slice nm hp hlen])
        have hag := hagree x (by simp) (by simp [isCand, hn, hp])
        have hd : ¬ (f.code ≠ x.code ∨ f.has_arg ≠ x.has_arg) := by
          simp [hag.1, hag.2]
        simp [scanLong, hx, hn, hp, hl, hd, ihr]
      · simp [scanLong, hx, hn, hp, ihr]

/-- If some remaining candidate disagrees with the held first candidate
in code or has_arg, and no exact match occurs, the scan raises the
ambiguity flag and keeps the held candidate. -/
theorem scanLong_some_diff (slice : Str) (f : ApOption) :
    ∀ (opts : List ApOption) (amb : Bool), (∀ x ∈ opts, x.code ≠ 0) →
    (∀ x ∈ opts, x.name ≠ some slice) →
    (∃ x ∈ opts, isCand slice x = true ∧
      (f.code ≠ x.code ∨ f.has_arg ≠ x.has_arg)) →
    scanLong slice opts (some f) amb = (some f, false, true) := by
  intro opts
  induction opts with
  | nil => intro amb _ _ hex; simp at hex
  | cons x rest ih =>
    intro amb hcode hname hex
    have hx : x.code ≠ 0 := hcode x (by simp)
    have hxn : x.name ≠ some slice := hname x (by simp)
    have hcr : ∀ y ∈ rest, y.code ≠ 0 := fun y hy => hcode y (by simp [hy])
    have hnr : ∀ y ∈ rest, y.name ≠ some slice := fun y hy => hname y (by simp [hy])
    cases hn : x.name with
    | none =>
      obtain ⟨z, hz, hzc, hzd⟩ := hex
      have hzr : z ∈ rest := by
        rcases List.mem_cons.mp hz with h | h
        · rw [h] at hzc; simp [isCand, hn] at hzc
        · exact h
      simp [scanLong, hx, hn, ih amb hcr hnr ⟨z, hzr, hzc, hzd⟩]
    | some nm =>
      by_cases hp : strncmpEq slice nm
      · have hl : nm.length ≠ slice.length := by
          intro hlen
          exact hxn (by rw [hn, eq_of_strncmpEq slice nm hp hlen])
        by_cases hd : f.code ≠ x.code ∨ f.has_arg ≠ x.has_arg
        · simp [scanLong, hx, hn, hp, hl, hd,
            scanLong_keep_true slice f rest hcr hnr]
        · obtain ⟨z, hz, hzc, hzd⟩ := hex
          have hzr : z ∈ rest := by
            rcases List.mem_cons.mp hz with h | h
            · exfalso; rw [h] at hzd; exact hd hzd
            · exact h
          simp [scanLong, hx, hn, hp, hl, hd, ih amb hcr hnr ⟨z, hzr, hzc, hzd⟩]
      · obtain ⟨z, hz, hzc, hzd⟩ := hex
        have hzr : z ∈ rest := by
          rcases List.mem_cons.mp hz with h | h
          · rw [h] at hzc; simp [isCand, hn, hp] at hzc
          · exact h
        simp [scanLong, hx, hn, hp, ih amb hcr hnr ⟨z, hzr, hzc, hzd⟩]

/-- Starting from no candidate, with no exact match in the table, the
scan selects the first candidate in table order; the ambiguity flag ends
up raised exactly when a later candidate disagrees with it in code or
has_arg.  Stated as the two directions used by the claims. -/
theorem scanLong_first_diff (slice : Str) :
    ∀ (opts : List ApOption) (f : ApOption), (∀ x ∈ opts, x.code ≠ 0) →
    (∀ x ∈ opts, x.name ≠ some slice) →
    opts.find? (isCand slice) = some f →
    (∃ x ∈ opts, isCand slice x = true ∧
      (f.code ≠ x.code ∨ f.has_arg ≠ x.has_arg)) →
    scanLong slice opts none false = (some f, false, true) := by
  intro opts
  induction opts with
  | nil => intro f _ _ hf _; simp [List.find?] at hf
  | cons x rest ih =>
    intro f hcode hname hf hex
    have hx : x.code ≠ 0 := hcode x (by simp)
    have hxn : x.name ≠ some slice := hname x (by simp)
    have hcr : ∀ y ∈ rest, y.code ≠ 0 := fun y hy => hcode y (by simp [hy])
    have hnr : ∀ y ∈ rest, y.name ≠ some slice := fun y hy => hname y (by simp [hy])
    by_cases hcx : isCand slice x = true
    · have hfx : f = x := by
        have := List.find?_cons_of_pos (p := isCand slice) rest hcx
        rw [this] at hf
        exact (Option.some_inj.mp hf).symm
      obtain ⟨nm, hn, hp⟩ : ∃ nm, x.name = some nm ∧ strncmpEq slice nm = true := by
        cases hn : x.name with
        | none => simp [isCand, hn] at hcx
        | some nm => exact ⟨nm, rfl, by simpa [isCand, hn] using hcx⟩
      have hl : nm.length ≠ slice.length := by
        intro hlen
        exact hxn (by rw [hn, eq_of_strncmpEq slice nm hp hlen])
      obtain ⟨z, hz, hzc, hzd⟩ := hex
      have hzr : z ∈ rest := by
        rcases List.mem_cons.mp hz with h | h
        · exfalso; rw [hfx, h] at hzd; simp at hzd
        · exact h
      simp [scanLong, hx, hn, hp, hl, hfx,
        scanLong_some_diff slice x rest false hcr hnr
          ⟨z, hzr, hzc, by rw [hfx] at hzd; exact hzd⟩]
    · have hf2 : rest.find? (isCand slice) = some f := by
        have := List.find?_cons_of_neg (p := isCand slice) (a := x) rest hcx
        rw [this] at hf
        exact hf
      obtain ⟨z, hz, hzc, hzd⟩ := hex
      have hzr : z ∈ rest := by
        rcases List.mem_cons.mp hz with h | h
        · exfalso; rw [h] at hzc; exact hcx hzc
        · exact h
      cases hn : x.name with
      | none => simp [scanLong, hx, hn, ih f hcr hnr hf2 ⟨z, hzr, hzc, hzd⟩]
      | some nm =>
        have hp : strncmpEq slice nm = false := by
          by_contra hc
          have hct : strncmpEq slice nm = true := by simpa using hc
          exact hcx (by simp [isCand, hn, hct])
        simp [scanLong, hx, hn, hp, ih f hcr hnr hf2 ⟨z, hzr, hzc, hzd⟩]

/-- Starting from no candidate, with no exact match and every candidate
agreeing with the first one in code and has_arg, the scan selects the
first candidate and the ambiguity flag stays down. -/
theorem scanLong_first_agree (slice : Str) :
    ∀ (opts : List ApOption) (f : ApOption), (∀ x ∈ opts, x.code ≠ 0) →
    (∀ x ∈ opts, x.name ≠ some slice) →
    opts.find? (isCand slice) = some f →
    (∀ x ∈ opts, isCand slice x = true →
      f.code = x.code ∧ f.has_arg = x.has_arg) →
    scanLong slice opts none false = (some f, false, false) := by
  intro opts
  induction opts with
  | nil => intro f _ _ hf _; simp [List.find?] at hf
  | cons x rest ih =>
    intro f hcode hname hf hagree
    have hx : x.code ≠ 0 := hcode x (by simp)
    have hxn : x.name ≠ some slice := hname x (by simp)
    have hcr : ∀ y ∈ rest, y.code ≠ 0 := fun y hy => hcode y (by simp [hy])
    have hnr : ∀ y ∈ rest, y.name ≠ some slice := fun y hy => hname y (by simp [hy])
    by_cases hcx : isCand slice x = true
    · have hfx : f = x := by
        have := List.find?_cons_of_pos (p := isCand slice) rest hcx
        rw [this] at hf
        exact (Option.some_inj.mp hf).symm
      obtain ⟨nm, hn, hp⟩ : ∃ nm, x.name = some nm ∧ strncmpEq slice nm = true := by
        cases hn : x.name with
        | none => simp [isCand, hn] at hcx
        | some nm => exact ⟨nm, rfl, by simpa [isCand, hn] using hcx⟩
      have hl : nm.length ≠ slice.length := by
        intro hlen
        exact hxn (by rw [hn, eq_of_strncmpEq slice nm hp hlen])
      simp [scanLong, hx, hn, hp, hl, hfx,
        scanLong_all_agree slice x false rest hcr hnr
          (fun y hy hc => by
            have := hagree y (by simp [hy]) hc
            rw [hfx] at this
            exact this)]
    · have hf2 : rest.find? (isCand slice) = some f := by
        have := List.find?_cons_of_neg (p := isCand slice) (a := x) rest hcx
        rw [this] at hf
        exact hf
      have hagr : ∀ y ∈ rest, isCand slice y = true →
          f.code = y.code ∧ f.has_arg = y.has_arg :=
        fun y hy hc => hagree y (by simp [hy]) hc
      cases hn : x.name with
      | none => simp [scanLong, hx, hn, ih f hcr hnr hf2 hagr]
      | some nm =>
        have hp : strncmpEq slice nm = false := by
          by_contra hc
          have hct : strncmpEq slice nm = true := by simpa using hc
          exact hcx (by simp [isCand, hn, hct])
        simp [scanLong, hx, hn, hp, ih f hcr hnr hf2 hagr]

theorem takeWhile_of_all (p : Char → Bool) :
    ∀ l : Str, (∀ c ∈ l, p c = true) → l.takeWhile p = l := by
  intro l
  induction l with
  | nil => intro _; rfl
  | cons c cs ih =>
    intro h
    simp [List.takeWhile_cons, h c (by simp), ih (fun d hd => h d (by simp [hd]))]

theorem takeWhile_append_stop (p : Char → Bool) (d : Char) (t : Str) :
    ∀ l : Str, (∀ c ∈ l, p c = true) → p d = false →
    (l ++ d :: t).takeWhile p = l := by
  intro l
  induction l with
  | nil => intro _ hd; simp [List.takeWhile_cons, hd]
  | cons c cs ih =>
    intro h hd
    simp [List.takeWhile_cons, h c (by simp),
      ih (fun e he => h e (by simp [he])) hd]

/-- Claim C1: for every option table and every long-option token whose
name slice exactly equals the name of some entry, the long-option scan
selects the first such entry and reports an exact match, regardless of
the tentative candidate and ambiguity flag carried in and regardless of
the entries behind the exact one. -/
theorem claim1_exact_match_wins (slice : Str) (pre : List ApOption)
    (o : ApOption)
    (hpre : ∀ x ∈ pre, x.code ≠ 0 ∧ x.name ≠ some slice)
    (hcode : o.code ≠ 0) (hname : o.name = some slice) :
    ∀ (post : List ApOption) (sel : Option ApOption) (amb : Bool),
      (scanLong slice (pre ++ o :: post) sel amb).1 = some o ∧
      (scanLong slice (pre ++ o :: post) sel amb).2.1 = true := by
  induction pre with
  | nil =>
    intro post sel amb
    simp [scanLong, hcode, hname, strncmpEq_self]
  | cons x pre ih =>
    intro post sel amb
    have hx := hpre x (by simp)
    have ihp := ih (fun y hy => hpre y (by simp [hy]))
    cases hn : x.name with
    | none => simpa [scanLong, hx.1, hn] using ihp post sel amb
    | some nm =>
      by_cases hp : strncmpEq slice nm
      · have hl : nm.length ≠ slice.length := by
          intro hlen
          exact hx.2 (by rw [hn, eq_of_strncmpEq slice nm hp hlen])
        cases sel with
        | none => simpa [scanLong, hx.1, hn, hp, hl] using ihp post (some x) amb
        | some s =>
          by_cases hd : s.code ≠ x.code ∨ s.has_arg ≠ x.has_arg
          · simpa [scanLong, hx.1, hn, hp, hl, hd] using ihp post (some s) true
          · simpa [scanLong, hx.1, hn, hp, hl, hd] using ihp post (some s) amb
      · simpa [scanLong, hx.1, hn, hp] using ihp post sel amb

/-- Witness for claim C1: with the table {foo, foobar} and distinct
codes, the token --foo resolves exactly to foo. -/
theorem claim1_witness :
    ((scanLong "foo".data [fooOpt, foobarOpt] none false).1 = some fooOpt ∧
     (scanLong "foo".data [fooOpt, foobarOpt] none false).2.1 = true) ∧
    ap_init ["prog".data, "--foo".data] [fooOpt, foobarOpt] false =
      ⟨[mkRecord fooOpt true []], none, 0⟩ :=
  ⟨claim1_exact_match_wins "foo".data [] fooOpt (by simp) (by decide)
    (by decide) [foobarOpt] none false, by decide⟩

/-- Claim C2: an abbreviated long option whose prefix matches two or
more entries that differ in code or has_arg, with no exact match, fails
as ambiguous; abbreviation candidates that agree with the first
candidate in both code and has_arg leave the scan unambiguous. -/
theorem claim2_ambiguous_abbreviation :
    (∀ (slice : Str) (opts : List ApOption) (f x : ApOption)
       (arg : Option Str),
      (∀ y ∈ opts, y.code ≠ 0) → (∀ y ∈ opts, y.name ≠ some slice) →
      opts.find? (isCand slice) = some f →
      x ∈ opts → isCand slice x = true →
      (f.code ≠ x.code ∨ f.has_arg ≠ x.has_arg) →
      (∀ d ∈ slice, d ≠ '=') →
      parse_long_option ('-' :: '-' :: slice) arg opts =
        ([], some (ambigMsg ('-' :: '-' :: slice)), 0)) ∧
    (∀ (slice : Str) (opts : List ApOption) (f : ApOption),
      (∀ y ∈ opts, y.code ≠ 0) → (∀ y ∈ opts, y.name ≠ some slice) →
      opts.find? (isCand slice) = some f →
      (∀ x ∈ opts, isCand slice x = true →
        f.code = x.code ∧ f.has_arg = x.has_arg) →
      scanLong slice opts none false = (some f, false, false)) := by
  constructor
  · intro slice opts f x arg hc hn hf hx hcand hdiff hsl
    have hscan := scanLong_first_diff slice opts f hc hn hf ⟨x, hx, hcand, hdiff⟩
    have htw : slice.takeWhile (fun d => d != '=') = slice :=
      takeWhile_of_all (fun d => d != '=') slice
        (fun d hdm => by simpa using hsl d hdm)
    simp [parse_long_option, htw, hscan]
  · intro slice opts f hc hn hf hagree
    exact scanLong_first_agree slice opts f hc hn hf hagree

/-- Witness for claim C2: with the table {verbose, version} and
distinct codes, --ver fails as ambiguous while --verb resolves to
verbose and its parse succeeds. -/
theorem claim2_witness :
    parse_long_option ('-' :: '-' :: "ver".data) none [verboseOpt, versionOpt] =
      ([], some (ambigMsg ('-' :: '-' :: "ver".data)), 0) ∧
    scanLong "verb".data [verboseOpt, versionOpt] none false =
      (some verboseOpt, false, false) ∧
    ap_init ["prog".data, "--verb".data] [verboseOpt, versionOpt] false =
      ⟨[mkRecord verboseOpt true []], none, 0⟩ :=
  ⟨claim2_ambiguous_abbreviation.1 "ver".data [verboseOpt, versionOpt]
      verboseOpt versionOpt none (by decide) (by decide) (by decide)
      (by decide) (by decide) (by decide) (by decide),
   claim2_ambiguous_abbreviation.2 "verb".data [verboseOpt, versionOpt]
      verboseOpt (by decide) (by decide) (by decide) (by decide),
   by decide⟩

/-- Claim C3: with the token vector [file1, -v, file2] and -v a no-arg
option, reorder mode (in_order false, the default) yields the records
[-v, file1, file2] while in-place mode (in_order true) yields
[file1, -v, file2]; in both modes the option after the first operand is
recognized. -/
theorem claim3_reorder_modes :
    ap_init ["prog".data, "file1".data, "-v".data, "file2".data] [vOpt] false =
      ⟨[mkRecord vOpt false [], operandRecord "file1".data,
        operandRecord "file2".data], none, 0⟩ ∧
    ap_init ["prog".data, "file1".data, "-v".data, "file2".data] [vOpt] true =
      ⟨[operandRecord "file1".data, mkRecord vOpt false [],
        operandRecord "file2".data], none, 0⟩ :=
  ⟨by decide, by decide⟩

/-- Claim C4: every parse terminates with either no error, or an empty
record store together with exactly one error message. -/
theorem claim4_terminal_state (argv : List Str) (opts : List ApOption)
    (io : Bool) :
    (ap_init argv opts io).error = none ∨
    ((ap_init argv opts io).data = [] ∧ (ap_init argv opts io).error ≠ none) := by
  unfold ap_init
  by_cases h : argv.length < 2
  · left; simp [h]
  · cases he : (scan opts io argv.tail).error with
    | none => left; simp [h, he]
    | some e => right; simp [h, he]

/-- Claim C5: in a short-option cluster, a matched option that takes an
argument and has characters left after it takes the whole remainder as
its argument and ends the cluster; a matched no-argument option records
an empty argument and the cluster loop continues on the remainder. -/
theorem claim5_short_cluster (opts : List ApOption) (arg : Option Str)
    (c : Char) (rest : Str) (o : ApOption)
    (hfind : findCode c opts = some o) (hrest : rest ≠ []) :
    (o.has_arg ≠ ap_no →
      shortLoop opts arg (c :: rest) = ([mkRecord o false rest], none, 1)) ∧
    (o.has_arg = ap_no →
      shortLoop opts arg (c :: rest) =
        (mkRecord o false [] :: (shortLoop opts arg rest).1,
         (shortLoop opts arg rest).2)) := by
  constructor
  · intro hy
    simp [shortLoop, hfind, hy, hrest]
  · intro hn
    simp [shortLoop, hfind, hn, hrest]

/-- Witness for claim C5: the token -abcVALUE with a, b no-arg and c
required-arg yields the records (a,""), (b,""), (c,"VALUE"). -/
theorem claim5_witness :
    shortLoop [aOpt, bOpt, cOpt] none ('c' :: "VALUE".data) =
      ([mkRecord cOpt false "VALUE".data], none, 1) ∧
    shortLoop [aOpt, bOpt, cOpt] none ('a' :: ['b']) =
      (mkRecord aOpt false [] :: (shortLoop [aOpt, bOpt, cOpt] none ['b']).1,
       (shortLoop [aOpt, bOpt, cOpt] none ['b']).2) ∧
    ap_init ["prog".data, "-abcVALUE".data] [aOpt, bOpt, cOpt] false =
      ⟨[mkRecord aOpt false [], mkRecord bOpt false [],
        mkRecord cOpt false "VALUE".data], none, 0⟩ :=
  ⟨(claim5_short_cluster [aOpt, bOpt, cOpt] none 'c' "VALUE".data cOpt
      (by decide) (by decide)).1 (by decide),
   (claim5_short_cluster [aOpt, bOpt, cOpt] none 'a' ['b'] aOpt
      (by decide) (by decide)).2 (by decide),
   by decide⟩

/-- Claim C6: a bare "--" token is consumed without producing a record
and ends option scanning, every later token becoming an operand; on
success the leftover tokens are appended after the deferred operands in
original order. -/
theorem claim6_ddash_terminator :
    (∀ (opts : List ApOption) (io : Bool) (rest : List Str),
      scan opts io (('-' :: '-' :: []) :: rest) = ⟨[], none, [], rest⟩) ∧
    ap_init ["prog".data, "--".data, "-x".data] [vOpt] false =
      ⟨[operandRecord "-x".data], none, 0⟩ ∧
    ap_init ["prog".data, "file1".data, "--".data, "-x".data] [vOpt] false =
      ⟨[operandRecord "file1".data, operandRecord "-x".data], none, 0⟩ :=
  ⟨fun _ _ _ => rfl, by decide, by decide⟩

/-- Claim C7: a required-argument option with no usable value fails
with the missing-argument diagnostic: long form with an empty =value,
long form with no following token or an empty following token, and
short form as final cluster character with no following token or an
empty following token. -/
theorem claim7_missing_argument (slice : Str) (opts : List ApOption)
    (o : ApOption) (ex : Bool) (c : Char) (oc : ApOption)
    (hscan : scanLong slice opts none false = (some o, ex, false))
    (hyes : o.has_arg = ap_yes)
    (hsl : ∀ d ∈ slice, d ≠ '=')
    (hfind : findCode c opts = some oc) (hcyes : oc.has_arg = ap_yes) :
    (∀ arg, parse_long_option ('-' :: '-' :: slice ++ ['=']) arg opts =
      ([], some (longReqMsg o), 1)) ∧
    parse_long_option ('-' :: '-' :: slice) none opts =
      ([], some (longReqMsg o), 1) ∧
    parse_long_option ('-' :: '-' :: slice) (some []) opts =
      ([], some (longReqMsg o), 1) ∧
    shortLoop opts none [c] = ([], some (shortReqMsg c), 1) ∧
    shortLoop opts (some []) [c] = ([], some (shortReqMsg c), 1) := by
  have htw : (slice ++ ['=']).takeWhile (fun d => d != '=') = slice :=
    takeWhile_append_stop (fun d => d != '=') '=' [] slice
      (fun d hdm => by simpa using hsl d hdm) (by decide)
  have htw2 : slice.takeWhile (fun d => d != '=') = slice :=
    takeWhile_of_all (fun d => d != '=') slice
      (fun d hdm => by simpa using hsl d hdm)
  refine ⟨fun arg => ?_, ?_, ?_, ?_, ?_⟩
  · simp [parse_long_option, htw, hscan, hyes, List.drop_left]
  · simp [parse_long_option, htw2, hscan, hyes, List.drop_length]
  · simp [parse_long_option, htw2, hscan, hyes, List.drop_length]
  · simp [shortLoop, hfind, hcyes]
  · simp [shortLoop, hfind, hcyes]

/-- Witness for claim C7: the table {foo: required, c: required} fails
with the missing-argument diagnostic on --foo=, on --foo with no or an
empty following token, and on -c with no or an empty following token. -/
theorem claim7_witness :
    parse_long_option ('-' :: '-' :: "foo".data ++ ['=']) none
      [fooReqOpt, cOpt] = ([], some (longReqMsg fooReqOpt), 1) ∧
    parse_long_option ('-' :: '-' :: "foo".data) none [fooReqOpt, cOpt] =
      ([], some (longReqMsg fooReqOpt), 1) ∧
    parse_long_option ('-' :: '-' :: "foo".data) (some []) [fooReqOpt, cOpt] =
      ([], some (longReqMsg fooReqOpt), 1) ∧
    shortLoop [fooReqOpt, cOpt] none ['c'] =
      ([], some (shortReqMsg 'c'), 1) ∧
    shortLoop [fooReqOpt, cOpt] (some []) ['c'] =
      ([], some (shortReqMsg 'c'), 1) := by
  have h := claim7_missing_argument "foo".data [fooReqOpt, cOpt] fooReqOpt
    true 'c' cOpt (by decide) (by decide) (by decide) (by decide) (by decide)
  exact ⟨h.1 none, h.2.1, h.2.2.1, h.2.2.2.1, h.2.2.2.2⟩

/-- Claim C8: ap_is_used holds exactly when the descriptor of some record
carries the queried code; in particular it is false when the record
store is empty. -/
theorem claim8_is_code_used (ap : ArgParser) (code : Nat) :
    (ap_is_used ap code = true ↔ ∃ r ∈ ap.data, r.option.code = code) ∧
    (ap_arguments ap = 0 → ap_is_used ap code = false) := by
  constructor
  · simp [ap_is_used, List.any_eq_true]
  · intro h
    have hd : ap.data = [] := List.length_eq_zero.mp (by simpa [ap_arguments] using h)
    simp [ap_is_used, hd]

/-- Witness for claim C8: instantiated at a parse of -v. -/
theorem claim8_witness :
    (ap_is_used (ap_init ["prog".data, "-v".data] [vOpt] false) 118 = true ↔
      ∃ r ∈ (ap_init ["prog".data, "-v".data] [vOpt] false).data,
        r.option.code = 118) ∧
    (ap_arguments (ap_init ["prog".data, "-v".data] [vOpt] false) = 0 →
      ap_is_used (ap_init ["prog".data, "-v".data] [vOpt] false) 118 = false) :=
  claim8_is_code_used (ap_init ["prog".data, "-v".data] [vOpt] false) 118

/-- Claim C9: teardown is idempotent: after one release the record
store is empty and the error is absent, and a second release leaves the
state unchanged. -/
theorem claim9_release_idempotent (ap : ArgParser) :
    ap_free (ap_free ap) = ap_free ap ∧ (ap_free ap).data = [] ∧
    (ap_free ap).error = none :=
  ⟨rfl, rfl, rfl⟩

/-- Claim C10: for every index outside [0, record_count) the per-record
accessors return their fixed defaults. -/
theorem claim10_accessor_defaults (ap : ArgParser) (i : Int)
    (h : ¬ (0 ≤ i ∧ i < (ap_arguments ap : Int))) :
    ap_code ap i = 0 ∧ ap_argument ap i = [] ∧ ap_opt_string ap i = [] ∧
    ap_option ap i = none := by
  simp [ap_code, ap_argument, ap_opt_string, ap_option, h]

/-- Witness for claim C10: the index -1 on an empty instance. -/
theorem claim10_witness :
    ap_code ⟨[], none, 0⟩ (-1) = 0 ∧ ap_argument ⟨[], none, 0⟩ (-1) = [] ∧
    ap_opt_string ⟨[], none, 0⟩ (-1) = [] ∧
    ap_option ⟨[], none, 0⟩ (-1) = none :=
  claim10_accessor_defaults ⟨[], none, 0⟩ (-1) (by decide)
